import Mathlib

/-!
Verification of the collapsible OSINT tree renderer
(src/src/CollapsibleTree.jsx, current revision, together with src/src/App.jsx).

We embed the data model (input JSON tree nodes; d3 hierarchy nodes carrying a
visible-children field and a hidden-children field), the collapse / toggle
operations, the hierarchy-initialization effect, the id-assigning data join of
the update pass, the coordinate normalization / clamping, the click handler
and the label-wrapping routine, and prove the specification's claims about
them.
-/

/-- External JSON tree node: a name, optional description, optional navigation
url, and an ordered sequence of child nodes.  An absent `children` field and an
empty `children` array behave identically in `d3.hierarchy` (no hierarchy
children are created in either case), so both are encoded as `[]`. -/
inductive TreeNode : Type where
  | mk (name : String) (description : Option String) (url : Option String)
      (children : List TreeNode) : TreeNode

def TreeNode.name : TreeNode → String
  | .mk n _ _ _ => n

def TreeNode.description : TreeNode → Option String
  | .mk _ d _ _ => d

def TreeNode.url : TreeNode → Option String
  | .mk _ _ u _ => u

def TreeNode.children : TreeNode → List TreeNode
  | .mk _ _ _ cs => cs

/-- d3 hierarchy node: wraps one data node, carries a depth, the visible
children field `children` and the hidden children field (named `_children` in
the source, `hiddenChildren` here).  In the source both fields hold either
`null`/`undefined` (modelled by `none`) or an array of nodes (modelled by
`some list`); JavaScript truthiness of the field is `Option.isSome` since any
array — even an empty one — is truthy.  The mutable coordinate adjuncts
(x, y, x0, y0) are modelled separately where the claims need them. -/
inductive HNode : Type where
  | mk (data : TreeNode) (depth : Nat) (children : Option (List HNode))
      (hiddenChildren : Option (List HNode)) : HNode

def HNode.data : HNode → TreeNode
  | .mk d _ _ _ => d

def HNode.depth : HNode → Nat
  | .mk _ dep _ _ => dep

def HNode.children : HNode → Option (List HNode)
  | .mk _ _ ch _ => ch

def HNode.hiddenChildren : HNode → Option (List HNode)
  | .mk _ _ _ hid => hid

/-- The `toggle` callback of CollapsibleTree.jsx:
`if (d.children) { d._children = d.children; d.children = null }
 else { d.children = d._children; d._children = null }`. -/
def toggle : HNode → HNode
  | .mk d dep (some cs) _ => .mk d dep none (some cs)
  | .mk d dep none hid => .mk d dep hid none

/-- Example data used by concrete witnesses (the spec's scenario tree
Root[A, B[C]] and pieces of it). -/
def tC : TreeNode := TreeNode.mk "C" none none []

def tB : TreeNode := TreeNode.mk "B" none none [tC]

def tA : TreeNode := TreeNode.mk "A" none none []

def tRoot : TreeNode := TreeNode.mk "Root" none none [tA, tB]

def exToggleNode : HNode := HNode.mk tB 1 none (some [HNode.mk tC 2 none none])

/-- C2: for a hierarchy node in a program-reachable state (at most one of the
visible/hidden children fields is populated — the invariant established by
claim C3), applying `toggle` twice restores the node exactly, in particular
its visible-children and hidden-children fields. -/
theorem toggle_toggle_id (n : HNode)
    (h : n.children = none ∨ n.hiddenChildren = none) :
    toggle (toggle n) = n := by
  cases n with
  | mk d dep ch hid =>
    cases ch with
    | none => cases hid <;> rfl
    | some cs =>
      rcases h with h | h
      · exact absurd h (by simp [HNode.children])
      · have hh : hid = none := h
        subst hh
        rfl

/-- Witness for C2 at a concrete node (the collapsed node B of the scenario
tree, whose hidden children hold C). -/
theorem toggle_toggle_id_witness :
    (exToggleNode.children = none ∨ exToggleNode.hiddenChildren = none)
    ∧ toggle (toggle exToggleNode) = exToggleNode :=
  ⟨Or.inl rfl, toggle_toggle_id exToggleNode (Or.inl rfl)⟩

mutual

/-- d3.hierarchy: wrap each data node at its depth.  `d3.hierarchy` assigns a
`children` array to a node only when the datum's `children` is present and
non-empty; otherwise the node's `children` stays undefined (`none`).  The
`_children` field does not exist yet (`none`). -/
def hierarchyAt : Nat → TreeNode → HNode
  | dep, TreeNode.mk n d u [] => HNode.mk (TreeNode.mk n d u []) dep none none
  | dep, TreeNode.mk n d u (c :: cs) =>
      HNode.mk (TreeNode.mk n d u (c :: cs)) dep
        (some (hierarchyList (dep + 1) (c :: cs))) none

def hierarchyList : Nat → List TreeNode → List HNode
  | _, [] => []
  | dep, c :: cs => hierarchyAt dep c :: hierarchyList dep cs

end

mutual

/-- The recursive `collapse` callback of CollapsibleTree.jsx:
`if (d.children) { d._children = d.children; d._children.forEach(collapse);
 d.children = null }`. -/
def collapse : HNode → HNode
  | HNode.mk d dep none hid => HNode.mk d dep none hid
  | HNode.mk d dep (some cs) _ => HNode.mk d dep none (some (collapseList cs))

def collapseList : List HNode → List HNode
  | [] => []
  | c :: cs => collapse c :: collapseList cs

end

mutual

/-- All nodes of a hierarchy subtree: the node itself plus, recursively,
everything reachable through the visible-children and hidden-children
fields. -/
def allNodes : HNode → List HNode
  | HNode.mk d dep ch hid =>
      HNode.mk d dep ch hid :: (allNodesOpt ch ++ allNodesOpt hid)

def allNodesOpt : Option (List HNode) → List HNode
  | none => []
  | some l => allNodesList l

def allNodesList : List HNode → List HNode
  | [] => []
  | c :: cs => allNodes c ++ allNodesList cs

end

/-- Induction principle for the nested inductive `TreeNode`: to prove a
property of every tree it suffices to prove it for a node assuming it for all
members of its child list. -/
theorem treeNodeInd (P : TreeNode → Prop)
    (h : ∀ n d u cs, (∀ c ∈ cs, P c) → P (TreeNode.mk n d u cs)) :
    ∀ t, P t := by
  have key : ∀ k, ∀ t : TreeNode, sizeOf t < k → P t := by
    intro k
    induction k with
    | zero => exact fun t ht => absurd ht (Nat.not_lt_zero _)
    | succ k ih =>
      intro t ht
      cases t with
      | mk n d u cs =>
        apply h
        intro c hc
        apply ih
        have h1 := List.sizeOf_lt_of_mem hc
        have h2 : sizeOf (TreeNode.mk n d u cs)
            = 1 + sizeOf n + sizeOf d + sizeOf u + sizeOf cs := by simp
        omega
  exact fun t => key (sizeOf t + 1) t (Nat.lt_succ_self _)

/-- Induction principle for the nested inductive `HNode`: to prove a property
of every hierarchy node it suffices to prove it for a node assuming it for all
members of its visible-children list and of its hidden-children list. -/
theorem hnodeInd (P : HNode → Prop)
    (h : ∀ d dep ch hid,
        (∀ l, ch = some l → ∀ c ∈ l, P c) →
        (∀ l, hid = some l → ∀ c ∈ l, P c) → P (HNode.mk d dep ch hid)) :
    ∀ n, P n := by
  have key : ∀ k, ∀ n : HNode, sizeOf n < k → P n := by
    intro k
    induction k with
    | zero => exact fun n hn => absurd hn (Nat.not_lt_zero _)
    | succ k ih =>
      intro n hn
      cases n with
      | mk d dep ch hid =>
        have hsz : sizeOf (HNode.mk d dep ch hid)
            = 1 + sizeOf d + sizeOf dep + sizeOf ch + sizeOf hid := by simp
        apply h
        · intro l hl c hc
          apply ih
          subst hl
          have h1 := List.sizeOf_lt_of_mem hc
          have h2 : sizeOf (some l) = 1 + sizeOf l := by simp
          omega
        · intro l hl c hc
          apply ih
          subst hl
          have h1 := List.sizeOf_lt_of_mem hc
          have h2 : sizeOf (some l) = 1 + sizeOf l := by simp
          omega
  exact fun n => key (sizeOf n + 1) n (Nat.lt_succ_self _)

theorem hierarchyList_eq_map (dep : Nat) (l : List TreeNode) :
    hierarchyList dep l = l.map (hierarchyAt dep) := by
  induction l with
  | nil => simp [hierarchyList]
  | cons c cs ih => simp [hierarchyList, ih]

theorem collapseList_eq_map (l : List HNode) :
    collapseList l = l.map collapse := by
  induction l with
  | nil => simp [collapseList]
  | cons c cs ih => simp [collapseList, ih]

theorem hierarchyAt_data (dep : Nat) (t : TreeNode) :
    (hierarchyAt dep t).data = t := by
  cases t with
  | mk n d u cs => cases cs <;> simp [hierarchyAt, HNode.data]

theorem collapse_data (n : HNode) : (collapse n).data = n.data := by
  cases n with
  | mk d dep ch hid => cases ch <;> simp [collapse, HNode.data]

theorem mem_allNodesList {m : HNode} {l : List HNode} :
    m ∈ allNodesList l ↔ ∃ c ∈ l, m ∈ allNodes c := by
  induction l with
  | nil => simp [allNodesList]
  | cons c cs ih => simp [allNodesList, ih]

/-- Whether an optional child list is a non-empty array. -/
def optNonEmpty : Option (List HNode) → Bool
  | none => false
  | some [] => false
  | some (_ :: _) => true

/-- The per-node invariant of claim C3: at most one of the visible-children
field and the hidden-children field holds a non-empty list. -/
def nodeInv (n : HNode) : Prop :=
  ¬(optNonEmpty n.children = true ∧ optNonEmpty n.hiddenChildren = true)

/-- The invariant holds at every node of the subtree. -/
def okTree (n : HNode) : Prop := ∀ m ∈ allNodes n, nodeInv m

theorem mem_allNodes_of_child {m c : HNode} {d : TreeNode} {dep : Nat}
    {l : List HNode} {hid : Option (List HNode)}
    (hc : c ∈ l) (hm : m ∈ allNodes c) :
    m ∈ allNodes (HNode.mk d dep (some l) hid) := by
  simp [allNodes, allNodesOpt, mem_allNodesList]
  exact Or.inr (Or.inl ⟨c, hc, hm⟩)

theorem mem_allNodes_of_hidden {m c : HNode} {d : TreeNode} {dep : Nat}
    {ch : Option (List HNode)} {l : List HNode}
    (hc : c ∈ l) (hm : m ∈ allNodes c) :
    m ∈ allNodes (HNode.mk d dep ch (some l)) := by
  simp [allNodes, allNodesOpt, mem_allNodesList]
  exact Or.inr (Or.inr ⟨c, hc, hm⟩)

theorem okTree_children {d : TreeNode} {dep : Nat} {l : List HNode}
    {hid : Option (List HNode)}
    (h : okTree (HNode.mk d dep (some l) hid)) : ∀ c ∈ l, okTree c :=
  fun c hc m hm => h m (mem_allNodes_of_child hc hm)

theorem okTree_hidden {d : TreeNode} {dep : Nat} {ch : Option (List HNode)}
    {l : List HNode}
    (h : okTree (HNode.mk d dep ch (some l))) : ∀ c ∈ l, okTree c :=
  fun c hc m hm => h m (mem_allNodes_of_hidden hc hm)

theorem okTree_hierarchyAt (dep : Nat) (t : TreeNode) :
    okTree (hierarchyAt dep t) := by
  induction t using treeNodeInd generalizing dep with
  | _ n d u cs ih =>
    cases cs with
    | nil =>
      intro m hm
      simp [hierarchyAt, allNodes, allNodesOpt] at hm
      subst hm
      simp [nodeInv, optNonEmpty, HNode.children, HNode.hiddenChildren]
    | cons c0 cs0 =>
      intro m hm
      simp [hierarchyAt, allNodes, allNodesOpt, mem_allNodesList,
        hierarchyList_eq_map] at hm
      rcases hm with hm | hm | ⟨a, ha, hm⟩
      · subst hm
        simp [nodeInv, optNonEmpty, HNode.children, HNode.hiddenChildren]
      · exact ih c0 (List.mem_cons_self _ _) (dep + 1) m hm
      · exact ih a (List.mem_cons_of_mem _ ha) (dep + 1) m hm

theorem okTree_collapse : ∀ n : HNode, okTree n → okTree (collapse n) := by
  intro n
  induction n using hnodeInd with
  | _ d dep ch hid ihch ihhid =>
    intro h
    cases ch with
    | none =>
      have : collapse (HNode.mk d dep none hid) = HNode.mk d dep none hid := by
        simp [collapse]
      rw [this]
      exact h
    | some cs =>
      intro m hm
      simp [collapse, allNodes, allNodesOpt, mem_allNodesList,
        collapseList_eq_map] at hm
      rcases hm with hm | ⟨c, hc, hm⟩
      · subst hm
        simp [nodeInv, optNonEmpty, HNode.children, HNode.hiddenChildren]
      · exact ihch cs rfl c hc (okTree_children h c hc) m hm

theorem okTree_toggle : ∀ n : HNode, okTree n → okTree (toggle n) := by
  intro n h
  cases n with
  | mk d dep ch hid =>
    cases ch with
    | some cs =>
      intro m hm
      simp [toggle, allNodes, allNodesOpt, mem_allNodesList] at hm
      rcases hm with hm | ⟨c, hc, hm⟩
      · subst hm
        simp [nodeInv, optNonEmpty, HNode.children, HNode.hiddenChildren]
      · exact okTree_children h c hc m hm
    | none =>
      intro m hm
      cases hid with
      | none =>
        simp [toggle, allNodes, allNodesOpt] at hm
        subst hm
        simp [nodeInv, optNonEmpty, HNode.children, HNode.hiddenChildren]
      | some hs =>
        simp [toggle, allNodes, allNodesOpt, mem_allNodesList] at hm
        rcases hm with hm | ⟨c, hc, hm⟩
        · subst hm
          simp [nodeInv, optNonEmpty, HNode.children, HNode.hiddenChildren]
        · exact okTree_hidden h c hc m hm

/-- C3: at most one of the visible-children and hidden-children fields of any
hierarchy node is non-empty: the invariant holds everywhere in a freshly built
hierarchy (where only visible children are populated), and it is preserved by
the collapse operation and by the toggle operation. -/
theorem children_invariant (t : TreeNode) (n : HNode) (h : okTree n) :
    okTree (hierarchyAt 0 t) ∧ okTree (collapse n) ∧ okTree (toggle n) :=
  ⟨okTree_hierarchyAt 0 t, okTree_collapse n h, okTree_toggle n h⟩

/-- Witness for C3 at the scenario tree and at the concrete collapsed node B
(whose hidden children hold C). -/
theorem children_invariant_witness :
    okTree exToggleNode
    ∧ (okTree (hierarchyAt 0 tRoot) ∧ okTree (collapse exToggleNode)
        ∧ okTree (toggle exToggleNode)) := by
  have hok : okTree exToggleNode := by
    intro m hm
    simp [exToggleNode, allNodes, allNodesOpt, allNodesList] at hm
    rcases hm with hm | hm <;> subst hm <;>
      simp [nodeInv, optNonEmpty, HNode.children, HNode.hiddenChildren]
  exact ⟨hok, children_invariant tRoot exToggleNode hok⟩

/-- The hierarchy-initialization effect of CollapsibleTree.jsx:
`const root = d3.hierarchy(data); if (root.children)
 { root.children.forEach(collapse) }` — the root keeps its children visible
while each child of the root is recursively collapsed. -/
def initRoot (t : TreeNode) : HNode :=
  match hierarchyAt 0 t with
  | HNode.mk d dep (some cs) hid => HNode.mk d dep (some (collapseList cs)) hid
  | n => n

/-- The data carried by a node's visible children, in order. -/
def childrenDataList (n : HNode) : List TreeNode :=
  match n.children with
  | none => []
  | some l => l.map HNode.data

/-- The data carried by a node's hidden children, in order. -/
def hiddenDataList (n : HNode) : List TreeNode :=
  match n.hiddenChildren with
  | none => []
  | some l => l.map HNode.data

theorem collapse_hierarchy_all :
    ∀ t : TreeNode, ∀ dep : Nat, ∀ m ∈ allNodes (collapse (hierarchyAt dep t)),
      m.children = none ∧ hiddenDataList m = m.data.children := by
  apply treeNodeInd
  intro n d u cs ih dep m hm
  cases cs with
  | nil =>
    simp [hierarchyAt, collapse, allNodes, allNodesOpt] at hm
    subst hm
    simp [HNode.children, hiddenDataList, HNode.hiddenChildren, HNode.data,
      TreeNode.children]
  | cons c0 cs0 =>
    simp [hierarchyAt, collapse, allNodes, allNodesOpt, mem_allNodesList,
      collapseList_eq_map, hierarchyList_eq_map] at hm
    rcases hm with hm | hm | ⟨a, ha, hm⟩
    · subst hm
      refine ⟨rfl, ?_⟩
      simp [hiddenDataList, HNode.hiddenChildren, HNode.data, TreeNode.children,
        collapse_data, hierarchyAt_data]
      refine ⟨?_, ?_⟩
      · show (collapse (hierarchyAt (dep + 1) c0)).data = c0
        rw [collapse_data, hierarchyAt_data]
      · have h3 : ∀ c ∈ cs0,
            (HNode.data ∘ collapse ∘ hierarchyAt (dep + 1)) c = id c := by
          intro c _
          simp [collapse_data, hierarchyAt_data]
        rw [List.map_congr_left h3, List.map_id]
    · exact ih c0 (List.mem_cons_self _ _) (dep + 1) m hm
    · exact ih a (List.mem_cons_of_mem _ ha) (dep + 1) m hm

/-- C1: after initialization on a new root data node, the root keeps its
children visible (its visible-children field is populated exactly when the
data node has children, with the original data in order), while every
hierarchy node strictly below the root has an empty visible-children field and
a hidden-children field holding exactly the node's original ordered
children. -/
theorem init_full_collapse (t : TreeNode) :
    ((initRoot t).children = none ↔ t.children = [])
    ∧ childrenDataList (initRoot t) = t.children
    ∧ ∀ l, (initRoot t).children = some l → ∀ c ∈ l, ∀ m ∈ allNodes c,
        m.children = none ∧ hiddenDataList m = m.data.children := by
  cases t with
  | mk n d u cs =>
    cases cs with
    | nil =>
      refine ⟨?_, ?_, ?_⟩
      · simp [initRoot, hierarchyAt, HNode.children, TreeNode.children]
      · simp [initRoot, hierarchyAt, childrenDataList, HNode.children,
          TreeNode.children]
      · intro l hl
        simp [initRoot, hierarchyAt, HNode.children] at hl
    | cons c0 cs0 =>
      have hinit : initRoot (TreeNode.mk n d u (c0 :: cs0))
          = HNode.mk (TreeNode.mk n d u (c0 :: cs0)) 0
              (some (collapseList (hierarchyList 1 (c0 :: cs0)))) none := by
        simp [initRoot, hierarchyAt]
      refine ⟨?_, ?_, ?_⟩
      · rw [hinit]
        simp [HNode.children, TreeNode.children]
      · rw [hinit]
        simp [childrenDataList, HNode.children, TreeNode.children,
          collapseList_eq_map, hierarchyList_eq_map]
        refine ⟨?_, ?_⟩
        · rw [collapse_data, hierarchyAt_data]
        · have h3 : ∀ c ∈ cs0,
              (HNode.data ∘ collapse ∘ hierarchyAt 1) c = id c := by
            intro c _
            simp [collapse_data, hierarchyAt_data]
          rw [List.map_congr_left h3, List.map_id]
      · rw [hinit]
        intro l hl c hc m hm
        simp [HNode.children] at hl
        subst hl
        rw [collapseList_eq_map, hierarchyList_eq_map, List.map_map] at hc
        obtain ⟨a, _, rfl⟩ := List.mem_map.mp hc
        exact collapse_hierarchy_all a 1 m hm

/-- Witness for C1 at the spec's scenario tree Root[A, B[C]]: the collapsed
child B of the root has no visible children and hides exactly its original
child C. -/
theorem init_full_collapse_witness :
    (initRoot tRoot).children = some [HNode.mk tA 1 none none, exToggleNode]
    ∧ exToggleNode ∈ [HNode.mk tA 1 none none, exToggleNode]
    ∧ exToggleNode ∈ allNodes exToggleNode
    ∧ (exToggleNode.children = none
        ∧ hiddenDataList exToggleNode = exToggleNode.data.children) := by
  have h1 : (initRoot tRoot).children
      = some [HNode.mk tA 1 none none, exToggleNode] := by
    simp [initRoot, hierarchyAt, hierarchyList, collapse, collapseList,
      tRoot, tA, tB, tC, exToggleNode, HNode.children]
  have h2 : exToggleNode ∈ [HNode.mk tA 1 none none, exToggleNode] := by
    simp
  have h3 : exToggleNode ∈ allNodes exToggleNode := by
    simp [exToggleNode, allNodes, allNodesOpt, allNodesList]
  exact ⟨h1, h2, h3, (init_full_collapse tRoot).2.2 _ h1 _ h2 _ h3⟩

theorem toggle_leafLike {n : HNode} (h1 : n.children = none)
    (h2 : n.hiddenChildren = none) :
    (toggle n).children = none ∧ (toggle n).hiddenChildren = none := by
  cases n with
  | mk d dep ch hid =>
    have hch : ch = none := h1
    subst hch
    have hhid : hid = none := h2
    subst hhid
    exact ⟨rfl, rfl⟩

/-- C10: the hierarchy node built from a childless data node (a leaf) starts
with both the visible-children and the hidden-children field empty, and any
finite sequence of toggle operations on it keeps both fields empty — clicking
a leaf can never reveal or hide anything. -/
theorem leaf_stays_leaf (t : TreeNode) (dep k : Nat) (h : t.children = []) :
    (toggle^[k] (hierarchyAt dep t)).children = none
    ∧ (toggle^[k] (hierarchyAt dep t)).hiddenChildren = none := by
  cases t with
  | mk n d u cs =>
    have hcs : cs = [] := h
    subst hcs
    have hstart : hierarchyAt dep (TreeNode.mk n d u [])
        = HNode.mk (TreeNode.mk n d u []) dep none none := by
      simp [hierarchyAt]
    rw [hstart]
    induction k with
    | zero => exact ⟨rfl, rfl⟩
    | succ k ih =>
      rw [Function.iterate_succ_apply']
      exact toggle_leafLike ih.1 ih.2

/-- Witness for C10 at the leaf A, with two toggles applied. -/
theorem leaf_stays_leaf_witness :
    tA.children = []
    ∧ ((toggle^[2] (hierarchyAt 0 tA)).children = none
        ∧ (toggle^[2] (hierarchyAt 0 tA)).hiddenChildren = none) :=
  ⟨rfl, leaf_stays_leaf tA 0 2 rfl⟩

/-- nodeRadius = 8 in CollapsibleTree.jsx. -/
def nodeRadius : ℚ := 8

/-- nodeDepthSpacing = 200 in CollapsibleTree.jsx. -/
def nodeDepthSpacing : ℚ := 200

/-- The resize handler floor: width = Math.max(clientWidth, 800). -/
def dimsWidth (clientWidth : ℚ) : ℚ := max clientWidth 800

/-- The resize handler floor: height = Math.max(clientHeight, 600). -/
def dimsHeight (clientHeight : ℚ) : ℚ := max clientHeight 600

/-- innerWidth = Math.max(dimensions.width - horizontalMargin * 2, 400) with
horizontalMargin = 60. -/
def innerWidth (clientWidth : ℚ) : ℚ := max (dimsWidth clientWidth - 60 * 2) 400

/-- innerHeight = Math.max(dimensions.height - verticalMargin * 2, 300) with
verticalMargin = 40. -/
def innerHeight (clientHeight : ℚ) : ℚ :=
  max (dimsHeight clientHeight - 40 * 2) 300

/-- Per-node coordinate normalization of the update pass:
`d.y = d.depth * nodeDepthSpacing;
 d.x = Math.max(nodeRadius, Math.min(innerHeight - nodeRadius, d.x));
 d.y = Math.max(nodeRadius, Math.min(innerWidth - nodeRadius, d.y));`
returning the final (x, y) of the node. -/
def normalizePos (innerW innerH : ℚ) (depth : Nat) (x : ℚ) : ℚ × ℚ :=
  (max nodeRadius (min (innerH - nodeRadius) x),
   max nodeRadius (min (innerW - nodeRadius) ((depth : ℚ) * nodeDepthSpacing)))

/-- C5: after the per-update normalization pass, every node's breadth-axis
coordinate lies in [nodeRadius, innerHeight - nodeRadius] and every depth-axis
coordinate lies in [nodeRadius, innerWidth - nodeRadius]; the dimension floors
make the inner dimensions at least 2 * nodeRadius for every container size. -/
theorem normalize_in_bounds (cw chh x : ℚ) (depth : Nat) :
    nodeRadius ≤ (normalizePos (innerWidth cw) (innerHeight chh) depth x).1
    ∧ (normalizePos (innerWidth cw) (innerHeight chh) depth x).1
        ≤ innerHeight chh - nodeRadius
    ∧ nodeRadius ≤ (normalizePos (innerWidth cw) (innerHeight chh) depth x).2
    ∧ (normalizePos (innerWidth cw) (innerHeight chh) depth x).2
        ≤ innerWidth cw - nodeRadius := by
  have hW : (400 : ℚ) ≤ innerWidth cw := le_max_right _ _
  have hH : (300 : ℚ) ≤ innerHeight chh := le_max_right _ _
  simp only [normalizePos]
  refine ⟨le_max_left _ _, ?_, le_max_left _ _, ?_⟩
  · apply max_le
    · simp only [nodeRadius] at *
      linarith
    · exact min_le_left _ _
  · apply max_le
    · simp only [nodeRadius] at *
      linarith
    · exact min_le_left _ _

/-- Counterexample to C6 as stated: at depth 0 (the root), the final
depth-axis coordinate after normalization is the clamp floor nodeRadius = 8,
not 0 = depth * nodeDepthSpacing (here at container size 800 x 600). -/
theorem depth_axis_cex :
    (normalizePos (innerWidth 800) (innerHeight 600) 0 150).2
      ≠ ((0 : Nat) : ℚ) * nodeDepthSpacing := by
  norm_num [normalizePos, innerWidth, innerHeight, dimsWidth, dimsHeight,
    nodeRadius, nodeDepthSpacing]

/-- C6 (amended): the depth-axis coordinate is set to depth * nodeDepthSpacing
and immediately clamped to [nodeRadius, innerWidth - nodeRadius]; whenever the
product lies inside the clamping bounds the final coordinate equals it (nodes
outside — the root at depth 0, and depths past the inner width — are clamped
to the bounds). -/
theorem depth_axis_amended (cw chh x : ℚ) (depth : Nat)
    (h1 : nodeRadius ≤ (depth : ℚ) * nodeDepthSpacing)
    (h2 : (depth : ℚ) * nodeDepthSpacing ≤ innerWidth cw - nodeRadius) :
    (normalizePos (innerWidth cw) (innerHeight chh) depth x).2
      = (depth : ℚ) * nodeDepthSpacing := by
  simp only [normalizePos]
  rw [min_eq_right h2, max_eq_right h1]

/-- Witness for the amended C6 at depth 1 and container size 800 x 600. -/
theorem depth_axis_amended_witness :
    (nodeRadius ≤ ((1 : Nat) : ℚ) * nodeDepthSpacing)
    ∧ (((1 : Nat) : ℚ) * nodeDepthSpacing ≤ innerWidth 800 - nodeRadius)
    ∧ (normalizePos (innerWidth 800) (innerHeight 600) 1 0).2
        = ((1 : Nat) : ℚ) * nodeDepthSpacing := by
  have h1 : nodeRadius ≤ ((1 : Nat) : ℚ) * nodeDepthSpacing := by
    norm_num [nodeRadius, nodeDepthSpacing]
  have h2 : ((1 : Nat) : ℚ) * nodeDepthSpacing ≤ innerWidth 800 - nodeRadius := by
    norm_num [innerWidth, dimsWidth, nodeRadius, nodeDepthSpacing]
  exact ⟨h1, h2, depth_axis_amended 800 600 0 1 h1 h2⟩

/-- The root previous-position initialization of the hierarchy effect:
`root.x0 = innerHeight / 2; root.y0 = 0;` returning (x0, y0). -/
def initRootPrevPos (innerH : ℚ) : ℚ × ℚ := (innerH / 2, 0)

/-- Counterexample to C7 as stated: at container size 800 x 600 the root's y0
is 0, not half the inner layout width (which is 340). -/
theorem root_prev_pos_cex :
    ¬((initRootPrevPos (innerHeight 600)).1 = innerHeight 600 / 2
      ∧ (initRootPrevPos (innerHeight 600)).2 = innerWidth 800 / 2) := by
  norm_num [initRootPrevPos, innerWidth, innerHeight, dimsWidth, dimsHeight]

/-- C7 (amended): on receiving a new root data node the root's previous
position is set to x0 = half the inner layout height and y0 = 0 (the left
edge of the drawing area) — never to half the inner layout width, which is
strictly positive. -/
theorem root_prev_pos_amended (cw chh : ℚ) :
    (initRootPrevPos (innerHeight chh)).1 = innerHeight chh / 2
    ∧ (initRootPrevPos (innerHeight chh)).2 = 0
    ∧ (initRootPrevPos (innerHeight chh)).2 ≠ innerWidth cw / 2 := by
  refine ⟨rfl, rfl, ?_⟩
  have hW : (400 : ℚ) ≤ innerWidth cw := le_max_right _ _
  simp only [initRootPrevPos]
  intro h
  linarith


/-- The id-assigning key function of the node data join,
`.data(nodes, d => d.id || (d.id = ++iRef.current))`, run left to right over
the bound node list.  A node's id is a natural number with 0 standing for the
JavaScript undefined/falsy state (`++i` hands out ids starting from 1, so 0 is
never an assigned id); a node whose id is truthy (non-zero) keeps it, a node
without an id receives the pre-incremented counter.  Returns the final counter
value and the per-node id list after the pass. -/
def assignIds : Nat → List Nat → Nat × List Nat
  | i, [] => (i, [])
  | i, 0 :: rest =>
      ((assignIds (i + 1) rest).1, (i + 1) :: (assignIds (i + 1) rest).2)
  | i, (id + 1) :: rest =>
      ((assignIds i rest).1, (id + 1) :: (assignIds i rest).2)

theorem assignIds_aux (ids : List Nat) : ∀ i : Nat, (∀ id ∈ ids, id ≤ i) →
    i ≤ (assignIds i ids).1
    ∧ ∀ x ∈ (assignIds i ids).2,
        (x ≠ 0 ∧ x ∈ ids ∧ x ≤ i) ∨ (i < x ∧ x ≤ (assignIds i ids).1) := by
  induction ids with
  | nil =>
    intro i _
    simp [assignIds]
  | cons id rest ih =>
    intro i h
    cases id with
    | zero =>
      simp only [assignIds]
      have hrest : ∀ x ∈ rest, x ≤ i + 1 :=
        fun x hx => Nat.le_succ_of_le (h x (List.mem_cons_of_mem _ hx))
      obtain ⟨h1, h2⟩ := ih (i + 1) hrest
      refine ⟨by omega, ?_⟩
      intro x hx
      rcases List.mem_cons.mp hx with rfl | hx
      · exact Or.inr ⟨Nat.lt_succ_self _, h1⟩
      · rcases h2 x hx with ⟨hne, hmem, _⟩ | ⟨hgt, hle⟩
        · exact Or.inl ⟨hne, List.mem_cons_of_mem _ hmem,
            h x (List.mem_cons_of_mem _ hmem)⟩
        · exact Or.inr ⟨by omega, hle⟩
    | succ k =>
      simp only [assignIds]
      have hrest : ∀ x ∈ rest, x ≤ i :=
        fun x hx => h x (List.mem_cons_of_mem _ hx)
      obtain ⟨h1, h2⟩ := ih i hrest
      refine ⟨h1, ?_⟩
      intro x hx
      rcases List.mem_cons.mp hx with rfl | hx
      · exact Or.inl ⟨Nat.succ_ne_zero _, List.mem_cons_self _ _,
          h _ (List.mem_cons_self _ _)⟩
      · rcases h2 x hx with ⟨hne, hmem, hle⟩ | hx2
        · exact Or.inl ⟨hne, List.mem_cons_of_mem _ hmem, hle⟩
        · exact Or.inr hx2

theorem assignIds_nodup (ids : List Nat) : ∀ i : Nat, (∀ id ∈ ids, id ≤ i) →
    (ids.filter (fun id => id ≠ 0)).Nodup → (assignIds i ids).2.Nodup := by
  induction ids with
  | nil =>
    intro i _ _
    simp [assignIds]
  | cons id rest ih =>
    intro i h hnd
    cases id with
    | zero =>
      simp only [assignIds]
      have hrest : ∀ x ∈ rest, x ≤ i + 1 :=
        fun x hx => Nat.le_succ_of_le (h x (List.mem_cons_of_mem _ hx))
      have hnd2 : (rest.filter (fun id => id ≠ 0)).Nodup := by
        simpa using hnd
      refine List.nodup_cons.mpr ⟨?_, ih (i + 1) hrest hnd2⟩
      intro hmem
      rcases (assignIds_aux rest (i + 1) hrest).2 _ hmem with ⟨_, hmem2, _⟩ | ⟨hgt, _⟩
      · have := h _ (List.mem_cons_of_mem _ hmem2)
        omega
      · omega
    | succ k =>
      simp only [assignIds]
      have hrest : ∀ x ∈ rest, x ≤ i :=
        fun x hx => h x (List.mem_cons_of_mem _ hx)
      have hfil : ((k + 1 : Nat) :: rest).filter (fun id => id ≠ 0)
          = (k + 1 : Nat) :: rest.filter (fun id => id ≠ 0) := by
        simp [List.filter_cons]
      rw [hfil] at hnd
      obtain ⟨hnotin, hnd2⟩ := List.nodup_cons.mp hnd
      refine List.nodup_cons.mpr ⟨?_, ih i hrest hnd2⟩
      intro hmem
      rcases (assignIds_aux rest i hrest).2 _ hmem with ⟨hne, hmem2, _⟩ | ⟨hgt, _⟩
      · exact hnotin (List.mem_filter.mpr ⟨hmem2, by simp⟩)
      · have := h (k + 1) (List.mem_cons_self _ _)
        omega

theorem assignIds_length (ids : List Nat) :
    ∀ i : Nat, (assignIds i ids).2.length = ids.length := by
  induction ids with
  | nil => intro i; simp [assignIds]
  | cons id rest ih =>
    intro i
    cases id with
    | zero => simp only [assignIds, List.length_cons, ih]
    | succ k => simp only [assignIds, List.length_cons, ih]

theorem assignIds_keep (ids : List Nat) :
    ∀ i : Nat, ∀ p ∈ ids.zip (assignIds i ids).2, p.1 ≠ 0 → p.2 = p.1 := by
  induction ids with
  | nil =>
    intro i p hp
    simp [assignIds] at hp
  | cons id rest ih =>
    intro i p hp hne
    cases id with
    | zero =>
      simp only [assignIds, List.zip_cons_cons] at hp
      rcases List.mem_cons.mp hp with rfl | hp
      · exact absurd rfl hne
      · exact ih (i + 1) p hp hne
    | succ k =>
      simp only [assignIds, List.zip_cons_cons] at hp
      rcases List.mem_cons.mp hp with rfl | hp
      · rfl
      · exact ih i p hp hne

theorem assignIds_all_assigned (ids : List Nat) :
    ∀ i : Nat, (∀ id ∈ ids, id ≠ 0) → assignIds i ids = (i, ids) := by
  induction ids with
  | nil => intro i _; simp [assignIds]
  | cons id rest ih =>
    intro i h
    cases id with
    | zero => exact absurd rfl (h 0 (List.mem_cons_self _ _))
    | succ k =>
      have hrest : ∀ x ∈ rest, x ≠ 0 :=
        fun x hx => h x (List.mem_cons_of_mem _ hx)
      simp only [assignIds, ih i hrest]

/-- C4: the data join's key function assigns a node's synthetic identity from
the monotonically increasing counter only when the node has none yet (the
counter never decreases, and every id after the pass is positive and bounded
by the final counter); a node that already carries an id keeps it unchanged
through the pass; under the session invariant (all ids so far were handed out
by the counter and are pairwise distinct) the ids after the pass are pairwise
distinct; and a further pass over the fully-assigned list — e.g. one
triggered by a container resize — changes nothing at all. -/
theorem assignIds_spec (i : Nat) (ids : List Nat)
    (hle : ∀ id ∈ ids, id ≤ i)
    (hnd : (ids.filter (fun id => id ≠ 0)).Nodup) :
    i ≤ (assignIds i ids).1
    ∧ (assignIds i ids).2.length = ids.length
    ∧ (∀ p ∈ ids.zip (assignIds i ids).2, p.1 ≠ 0 → p.2 = p.1)
    ∧ (assignIds i ids).2.Nodup
    ∧ (∀ x ∈ (assignIds i ids).2, 1 ≤ x ∧ x ≤ (assignIds i ids).1)
    ∧ assignIds (assignIds i ids).1 (assignIds i ids).2 = assignIds i ids := by
  obtain ⟨h1, h2⟩ := assignIds_aux ids i hle
  refine ⟨h1, assignIds_length ids i, assignIds_keep ids i,
    assignIds_nodup ids i hle hnd, ?_, ?_⟩
  · intro x hx
    rcases h2 x hx with ⟨hne, _, hle2⟩ | ⟨hgt, hle2⟩
    · exact ⟨Nat.one_le_iff_ne_zero.mpr hne, le_trans hle2 h1⟩
    · exact ⟨by omega, hle2⟩
  · have hall : ∀ x ∈ (assignIds i ids).2, x ≠ 0 := by
      intro x hx
      rcases h2 x hx with ⟨hne, _, _⟩ | ⟨hgt, _⟩
      · exact hne
      · omega
    rw [assignIds_all_assigned _ _ hall]

/-- Witness for C4: counter 2, node ids [1, 0, 2] (two nodes already bound,
one new node which receives id 3). -/
theorem assignIds_spec_witness :
    (∀ id ∈ [1, 0, 2], id ≤ 2)
    ∧ (([1, 0, 2].filter (fun id => id ≠ 0)).Nodup)
    ∧ (2 ≤ (assignIds 2 [1, 0, 2]).1
        ∧ (assignIds 2 [1, 0, 2]).2.length = [1, 0, 2].length
        ∧ (∀ p ∈ [1, 0, 2].zip (assignIds 2 [1, 0, 2]).2, p.1 ≠ 0 → p.2 = p.1)
        ∧ (assignIds 2 [1, 0, 2]).2.Nodup
        ∧ (∀ x ∈ (assignIds 2 [1, 0, 2]).2, 1 ≤ x ∧ x ≤ (assignIds 2 [1, 0, 2]).1)
        ∧ assignIds (assignIds 2 [1, 0, 2]).1 (assignIds 2 [1, 0, 2]).2
            = assignIds 2 [1, 0, 2]) :=
  ⟨by decide, by decide, assignIds_spec 2 [1, 0, 2] (by decide) (by decide)⟩

theorem toggle_data (n : HNode) : (toggle n).data = n.data := by
  cases n with
  | mk d dep ch hid => cases ch <;> rfl

/-- JavaScript truthiness of an optional string field: undefined/null and the
empty string are falsy, every other string is truthy. -/
def jsTruthyStr : Option String → Bool
  | none => false
  | some s => !s.isEmpty

/-- handleClick of CollapsibleTree.jsx:
`if (d.data.url) { window.open(d.data.url, '_blank') }` — returns the URL
opened in a new browsing context, if any. -/
def handleClick (d : HNode) : Option String :=
  if jsTruthyStr d.data.url then d.data.url else none

/-- The click handler wired on every node group:
`event.stopPropagation(); toggle(d); update(d); handleClick(d);` — the node
is toggled in place, `update` is re-run with the clicked node (now toggled) as
the source, and `handleClick` then reads the same node's data (unchanged by
toggle).  Returns (node state after the click, source passed to update, URL
opened if any). -/
def onClick (d : HNode) : HNode × HNode × Option String :=
  (toggle d, toggle d, handleClick (toggle d))

def exUrlNode : HNode := HNode.mk (TreeNode.mk "X" none (some "") []) 0 none none

/-- Counterexample to C8 as stated: a node whose data carries the url field
with value "" (the empty string) opens nothing on click — `if (d.data.url)`
is falsy for the empty string — so "a URL is opened if and only if the data
carries a url field" fails. -/
theorem click_url_cex :
    ¬(((onClick exUrlNode).2.2 ≠ none) ↔ exUrlNode.data.url ≠ none) := by
  intro h
  have h2 : (onClick exUrlNode).2.2 = none := rfl
  have h3 : exUrlNode.data.url ≠ none := by
    simp [exUrlNode, HNode.data, TreeNode.url]
  exact absurd h2 (h.mpr h3)

/-- C8 (amended): clicking a node toggles that node's hidden/visible children
and re-runs the update with the clicked node as the source; the node's URL is
opened in a new browsing context iff the url field is present and non-empty
(an empty url string is falsy, so such a node only toggles). -/
theorem click_amended (d : HNode) :
    (onClick d).1 = toggle d
    ∧ (onClick d).2.1 = toggle d
    ∧ ∀ u : String,
        ((onClick d).2.2 = some u ↔ d.data.url = some u ∧ u.isEmpty = false) := by
  refine ⟨rfl, rfl, ?_⟩
  intro u
  show handleClick (toggle d) = some u ↔ _
  simp only [handleClick, toggle_data]
  cases hurl : d.data.url with
  | none => simp [jsTruthyStr]
  | some s =>
    cases hs : s.isEmpty with
    | true =>
      have hcond : ¬jsTruthyStr (some s) = true := by simp [jsTruthyStr, hs]
      rw [if_neg hcond]
      constructor
      · intro h
        exact absurd h (by simp)
      · rintro ⟨hh, hemp⟩
        have hsu : s = u := Option.some.inj hh
        rw [← hsu, hs] at hemp
        cases hemp
    | false =>
      have hcond : jsTruthyStr (some s) = true := by simp [jsTruthyStr, hs]
      rw [if_pos hcond]
      constructor
      · intro h
        have hsu : s = u := Option.some.inj h
        exact ⟨by rw [hsu], by rw [← hsu]; exact hs⟩
      · rintro ⟨h, _⟩
        exact h

/-- The whitespace class of the JavaScript regular expression `\s` (wrapText
splits labels with `text.split(/\s+/)`): tab through carriage return, space,
no-break space, ogham space mark, the en-quad..hair-space range, line and
paragraph separators, narrow no-break space, medium mathematical space,
ideographic space and the BOM. -/
def isJsWs (c : Char) : Bool :=
  c = ' ' || c = '\t' || c = '\n' || c = '\r' || c = '\x0b' || c = '\x0c'
    || c = ' ' || c = ' ' || (' ' ≤ c && c ≤ ' ')
    || c = ' ' || c = ' ' || c = ' ' || c = ' '
    || c = '　' || c = '﻿'

/-- Helper of `splitWs`: walk the characters accumulating the current piece
(reversed); at a whitespace character emit the piece and skip the rest of the
run; at the end emit the pending piece.  This reproduces
`String.prototype.split(/\s+/)`: a leading run contributes a leading empty
piece and a trailing run a trailing empty piece. -/
def splitWsGo : List Char → List Char → Bool → List String
  | [], acc, _ => [String.mk acc.reverse]
  | c :: cs, acc, inRun =>
    if isJsWs c then
      if inRun then splitWsGo cs acc true
      else String.mk acc.reverse :: splitWsGo cs [] true
    else splitWsGo cs (c :: acc) false

/-- `label.split(/\s+/)`: split a string at maximal runs of whitespace. -/
def splitWs (s : String) : List String := splitWsGo s.data [] false

/-- `line.flatten(" ")`. -/
def joinSp (l : List String) : String := String.intercalate " " l

/-- The vertical offset (the `dy` attribute, in em) carried by the k-th tspan
produced by wrapText: the first tspan keeps the inherited `dy`, each later
tspan is created with `++lineNumber * lineHeight + dy` where lineHeight is
1.1. -/
def lineDy (dy0 : ℚ) (k : Nat) : ℚ := (k : ℚ) * (11 / 10) + dy0

/-- The word-packing loop of wrapText: pop the next word (the loop
`while (word = words.pop())` stops at the first falsy word, i.e. an empty
string, and at the end of the array), append it to the current line, and if
the measured width of the joined line then exceeds the width budget, remove
it again and start a new tspan holding just that word.  Each produced pair is
(final word list of a tspan, its dy offset); the tspan's rendered text is the
space-join of its word list. -/
def wrapGo (meas : String → ℚ) (budget dy0 : ℚ) :
    List String → List String → Nat → List (List String × ℚ)
  | [], line, k => [(line, lineDy dy0 k)]
  | w :: ws, line, k =>
    if w.isEmpty then [(line, lineDy dy0 k)]
    else if budget < meas (joinSp (line ++ [w])) then
      (line, lineDy dy0 k) :: wrapGo meas budget dy0 ws [w] (k + 1)
    else wrapGo meas budget dy0 ws (line ++ [w]) k

/-- wrapText of CollapsibleTree.jsx applied to one label, with the pixel
measure `getComputedTextLength()` abstracted as `meas` and the dy attribute
parsed off the text element as `dy0` (0.35 in the component). -/
def wrapText (meas : String → ℚ) (budget dy0 : ℚ) (label : String) :
    List (List String × ℚ) :=
  wrapGo meas budget dy0 (splitWs label) [] 0

/-- A concrete measure for counterexample and witness: the string length in
characters. -/
def measLen (s : String) : ℚ := (s.length : ℚ)

/-- Counterexample to C9 as stated: for the label " a" (leading whitespace)
the split produces a leading empty word, the loop `while (word =
words.pop())` stops at it immediately, and the only produced line is empty:
the word "a" is dropped, so the concatenation of the produced lines matches
neither the split result nor its non-empty words. -/
theorem wrap_concat_cex :
    (((wrapText measLen 120 (7 / 20) " a").map Prod.fst).flatten ≠ splitWs " a")
    ∧ (((wrapText measLen 120 (7 / 20) " a").map Prod.fst).flatten
        ≠ (splitWs " a").filter (fun w => !w.isEmpty)) := by
  constructor <;> decide

theorem wrapGo_concat (meas : String → ℚ) (budget dy0 : ℚ) :
    ∀ (ws line : List String) (k : Nat),
      ((wrapGo meas budget dy0 ws line k).map Prod.fst).flatten
        = line ++ ws.takeWhile (fun w => !w.isEmpty) := by
  intro ws
  induction ws with
  | nil =>
    intro line k
    simp [wrapGo]
  | cons w ws ih =>
    intro line k
    by_cases hw : w.isEmpty = true
    · simp [wrapGo, hw]
    · by_cases hover : budget < meas (joinSp (line ++ [w]))
      · simp [wrapGo, hw, hover, ih]
      · simp [wrapGo, hw, hover, ih]


theorem wrapGo_dy (meas : String → ℚ) (budget dy0 : ℚ) :
    ∀ (ws line : List String) (k j : Nat),
      ∀ p ∈ (wrapGo meas budget dy0 ws line k).enumFrom j,
        p.2.2 = lineDy dy0 (k + (p.1 - j)) := by
  intro ws
  induction ws with
  | nil =>
    intro line k j p hp
    simp [wrapGo] at hp
    subst hp
    simp
  | cons w ws ih =>
    intro line k j p hp
    by_cases hw : w.isEmpty = true
    · simp only [wrapGo, if_pos hw] at hp
      simp at hp
      subst hp
      simp
    · by_cases hover : budget < meas (joinSp (line ++ [w]))
      · simp only [wrapGo, if_neg hw, if_pos hover, List.enumFrom_cons] at hp
        rcases List.mem_cons.mp hp with rfl | hp
        · simp
        · have hge : j + 1 ≤ p.1 := List.le_fst_of_mem_enumFrom hp
          rw [ih [w] (k + 1) (j + 1) p hp]
          congr 1
          omega
      · simp only [wrapGo, if_neg hw, if_neg hover] at hp
        exact ih (line ++ [w]) k j p hp

/-- C9 (amended): the label-wrapping routine splits the label on whitespace
and greedily packs words left-to-right — appending the next word to the
current line and, when the measured width of the joined line exceeds the
budget, removing that word and starting a new line containing it — and the
k-th produced line (0-based) carries the vertical offset k * 1.1 + dy em;
the concatenation of the produced lines equals the split word sequence
truncated at its first empty word.  This is the whole word sequence whenever
the label is non-empty and does not start with whitespace; a label with
leading whitespace loses all its words (the loop stops at the leading empty
word). -/
theorem wrapText_spec (meas : String → ℚ) (budget dy0 : ℚ) (label : String) :
    ((wrapText meas budget dy0 label).map Prod.fst).flatten
      = (splitWs label).takeWhile (fun w => !w.isEmpty)
    ∧ ∀ p ∈ (wrapText meas budget dy0 label).enum,
        p.2.2 = (p.1 : ℚ) * (11 / 10) + dy0 := by
  constructor
  · simpa using wrapGo_concat meas budget dy0 (splitWs label) [] 0
  · intro p hp
    have := wrapGo_dy meas budget dy0 (splitWs label) [] 0 0 p hp
    simpa [lineDy] using this

theorem wrapGo_nil {meas : String → ℚ} {b d : ℚ} {line : List String} {k : Nat} :
    wrapGo meas b d [] line k = [(line, lineDy d k)] := by
  simp [wrapGo]

theorem wrapGo_cons_fit {meas : String → ℚ} {b d : ℚ} {w : String}
    {ws line : List String} {k : Nat} (hw : ¬w.isEmpty = true)
    (hfit : ¬b < meas (joinSp (line ++ [w]))) :
    wrapGo meas b d (w :: ws) line k = wrapGo meas b d ws (line ++ [w]) k := by
  simp [wrapGo, hw, hfit]

theorem wrapGo_cons_over {meas : String → ℚ} {b d : ℚ} {w : String}
    {ws line : List String} {k : Nat} (hw : ¬w.isEmpty = true)
    (hover : b < meas (joinSp (line ++ [w]))) :
    wrapGo meas b d (w :: ws) line k
      = (line, lineDy d k) :: wrapGo meas b d ws [w] (k + 1) := by
  simp [wrapGo, hw, hover]

/-- Witness for the amended C9: measure = character count, budget 4, label
"aa bb" — the two words land on separate lines and the second line's dy is
1 * 1.1 + 0.35 em. -/
theorem wrapText_spec_witness :
    (((1 : Nat), ((["bb"], lineDy (7 / 20) 1)))
        ∈ (wrapText measLen 4 (7 / 20) "aa bb").enum)
    ∧ ((wrapText measLen 4 (7 / 20) "aa bb").map Prod.fst).flatten
        = (splitWs "aa bb").takeWhile (fun w => !w.isEmpty)
    ∧ (lineDy (7 / 20) 1 = ((1 : Nat) : ℚ) * (11 / 10) + 7 / 20) := by
  have hsplit : splitWs "aa bb" = ["aa", "bb"] := by decide
  have hval : wrapText measLen 4 (7 / 20) "aa bb"
      = [(["aa"], lineDy (7 / 20) 0), (["bb"], lineDy (7 / 20) 1)] := by
    rw [wrapText, hsplit,
      wrapGo_cons_fit (by decide) (by decide),
      wrapGo_cons_over (by decide) (by decide), wrapGo_nil]
    rfl
  have hmem : ((1 : Nat), ((["bb"], lineDy (7 / 20) 1)))
      ∈ (wrapText measLen 4 (7 / 20) "aa bb").enum := by
    rw [hval]
    exact List.mem_cons_of_mem _ (List.mem_cons_self _ _)
  exact ⟨hmem, (wrapText_spec measLen 4 (7 / 20) "aa bb").1,
    (wrapText_spec measLen 4 (7 / 20) "aa bb").2 _ hmem⟩
